import Mathlib

/-! Verification of the `ctydat` CTY.DAT parser and callsign-resolution library
(`src/lib.rs`).  The parser combinators below shallowly embed the chumsky 0.9
combinators used by the source: a parser is a function from the remaining
input (a list of characters) to an optional pair of a result and the rest of
the input.  Semantics follow chumsky's PEG discipline: `or` is ordered choice
with full backtracking, repetition is greedy, and `Parser::parse` does not
require the whole input to be consumed (the crate's own unit test relies on
trailing input being ignored).

Machine floats (`f32`) carry no arithmetic in this library: they are parsed
from decimal literals and copied around.  They are therefore modelled as exact
decimal rationals; every claim compares only values parsed from identical
decimal strings, on which `f32` equality and rational equality agree.

Rust's Unicode `str::to_lowercase` is modelled by its ASCII restriction: all
index keys are built from the ASCII alias character classes of the grammar,
and every concrete input in the claims is ASCII, where the two coincide.
-/

set_option maxRecDepth 10000

namespace Cty

/-! Section: Character classes (from the closures and `char` methods in `lib.rs`) -/

/-- Rust `char::is_ascii`. -/
def is_ascii (c : Char) : Bool := c.toNat ≤ 127

/-- Rust `char::is_control` (Unicode category Cc). -/
def is_control (c : Char) : Bool := c.toNat < 32 || (127 ≤ c.toNat && c.toNat ≤ 159)

/-- The closure `ascii_not_comma` from `parser()` (it in fact excludes `:`). -/
def ascii_not_comma (c : Char) : Bool := is_ascii c && !is_control c && c ≠ ':'

/-- The closure `ascii_float` from `parser()`. -/
def ascii_float (c : Char) : Bool := c.isDigit || c == '-' || c == '.'

/-- Rust `char::is_ascii_alphanumeric`. -/
def is_ascii_alphanumeric (c : Char) : Bool :=
  (97 ≤ c.toNat && c.toNat ≤ 122) || (65 ≤ c.toNat && c.toNat ≤ 90) ||
    (48 ≤ c.toNat && c.toNat ≤ 57)

/-- Rust `char::is_whitespace` (Unicode property White_Space), used by
chumsky's `padded`. -/
def is_whitespace (c : Char) : Bool :=
  (9 ≤ c.toNat && c.toNat ≤ 13) || c.toNat = 32 || c.toNat = 133 || c.toNat = 160 ||
    c.toNat = 5760 || (8192 ≤ c.toNat && c.toNat ≤ 8202) || c.toNat = 8232 ||
    c.toNat = 8233 || c.toNat = 8239 || c.toNat = 8287 || c.toNat = 12288

/-- Rust `char::to_ascii_lowercase`. -/
def char_to_ascii_lowercase (c : Char) : Char :=
  if 65 ≤ c.toNat && c.toNat ≤ 90 then Char.ofNat (c.toNat + 32) else c

/-- Rust `str::to_ascii_lowercase`, used on alias tokens before insertion. -/
def to_ascii_lowercase (s : List Char) : List Char := s.map char_to_ascii_lowercase

/-- Rust `str::to_lowercase`, used on the queried callsign.  Modelled by its
ASCII restriction (see the header comment). -/
def to_lowercase (s : List Char) : List Char := s.map char_to_ascii_lowercase

/-! Section: Numeric and fixed-capacity string parsing -/

/-- Value of a digit string (digits already validated by the grammar). -/
def digitsToNat (s : List Char) : Nat := s.foldl (fun n c => 10 * n + (c.toNat - 48)) 0

/-- Rust `u8::from_str` applied to a string of decimal digits: leading zeros
are accepted, values above `u8::MAX` overflow and error. -/
def parse_u8 (s : List Char) : Option Nat :=
  if s.isEmpty then none
  else if digitsToNat s ≤ 255 then some (digitsToNat s) else none

/-- The unsigned part of Rust's float grammar restricted to the characters the
grammar admits (digits, `-`, `.`): `Digits ['.' Digits*] | '.' Digits+`.  The
value `intpart + fracpart / 10 ^ |fracpart|` is built with `mkRat` over a
common denominator. -/
def parse_decimal (s : List Char) : Option Rat :=
  let ip := s.takeWhile Char.isDigit
  let rest := s.dropWhile Char.isDigit
  match rest with
  | [] => if ip.isEmpty then none else some (mkRat (digitsToNat ip) 1)
  | '.' :: r =>
    let fp := r.takeWhile Char.isDigit
    let rest2 := r.dropWhile Char.isDigit
    if rest2.isEmpty then
      if ip.isEmpty && fp.isEmpty then none
      else some (mkRat (digitsToNat ip * 10 ^ fp.length + digitsToNat fp) (10 ^ fp.length))
    else none
  | _ => none

/-- Rust `f32::from_str` on strings over digits, `-` and `.` (the grammar's
`ascii_float` class), with the value modelled exactly. -/
def parse_f32 (s : List Char) : Option Rat :=
  match s with
  | '-' :: r => (parse_decimal r).map (fun q => -q)
  | '+' :: r => parse_decimal r
  | r => parse_decimal r

/-- Model of `TinyAsciiStr<n>::from_str`: succeeds iff the string has at most `n`
characters, all of them non-NUL ASCII. -/
def tiny_ascii_str (n : Nat) (s : List Char) : Option (List Char) :=
  if s.length ≤ n && s.all (fun c => 0 < c.toNat && c.toNat ≤ 127) then some s else none

/-! Section: Data model (`Override`, the alias enum, `Country`) -/

/-- The `Override` enum from `lib.rs`. -/
inductive Override where
  | CqZone (z : Nat)
  | ItuZone (z : Nat)
  | Coordinates (lat lon : Rat)
  | Continent (c : List Char)
  | TimeOffset (t : Rat)
deriving DecidableEq, Repr

/-- The alias enum from `lib.rs` (there named after the word for a leading
substring, which this development avoids as an identifier): `Callsign` holds a
`TinyAsciiStr<16>` exact callsign, `Pfx` a `TinyAsciiStr<8>` prefix token. -/
inductive PrefixEntry where
  | Callsign (cs : List Char) (ors : Option (List Override))
  | Pfx (p : List Char) (ors : Option (List Override))
deriving DecidableEq, Repr

/-- The `Country` struct from `lib.rs`.  `primary_pfx` is the source's
`TinyAsciiStr<8>` primary-prefix field. -/
structure Country where
  country_name : List Char
  cq_zone : Nat
  itu_zone : Nat
  continent : List Char
  latitude : Rat
  longitude : Rat
  time_offset : Rat
  primary_pfx : List Char
  prefix_list : List PrefixEntry
deriving DecidableEq, Repr

/-- The body of the `for` loop in `Country::implement_overrides`. -/
def apply_override (country : Country) (o : Override) : Country :=
  match o with
  | .Continent c => { country with continent := c }
  | .Coordinates lat lon => { country with latitude := lat, longitude := lon }
  | .CqZone z => { country with cq_zone := z }
  | .ItuZone z => { country with itu_zone := z }
  | .TimeOffset t => { country with time_offset := t }

/-- Method `Country::implement_overrides`: clone, clear the alias list, then apply
each override in order. -/
def Country.implement_overrides (self : Country) (overrides : List Override) : Country :=
  overrides.foldl apply_override { self with prefix_list := [] }

/-! Section: Parser combinators (shallow embedding of the chumsky 0.9 subset used) -/

/-- A parser over a character stream. -/
def P (α : Type) : Type := List Char → Option (α × List Char)

/-- chumsky `map`. -/
def pmap {α β : Type} (f : α → β) (p : P α) : P β := fun s =>
  match p s with
  | none => none
  | some (a, s') => some (f a, s')

/-- chumsky `try_map`: a `none` from `f` is a parse error at this point. -/
def ptryMap {α β : Type} (f : α → Option β) (p : P α) : P β := fun s =>
  match p s with
  | none => none
  | some (a, s') =>
    match f a with
    | none => none
    | some b => some (b, s')

/-- chumsky `then`. -/
def pthen {α β : Type} (p : P α) (q : P β) : P (α × β) := fun s =>
  match p s with
  | none => none
  | some (a, s') =>
    match q s' with
    | none => none
    | some (b, s'') => some ((a, b), s'')

/-- chumsky `then_ignore`. -/
def pthenIgnore {α β : Type} (p : P α) (q : P β) : P α := fun s =>
  match p s with
  | none => none
  | some (a, s') =>
    match q s' with
    | none => none
    | some (_, s'') => some (a, s'')

/-- chumsky `ignore_then`. -/
def pignoreThen {α β : Type} (p : P α) (q : P β) : P β := fun s =>
  match p s with
  | none => none
  | some (_, s') => q s'

/-- chumsky `or`: ordered choice, backtracking to the original position. -/
def por {α : Type} (p q : P α) : P α := fun s =>
  match p s with
  | some r => some r
  | none => q s

/-- chumsky `filter`: consume one character satisfying the predicate. -/
def pfilter (pred : Char → Bool) : P Char := fun s =>
  match s with
  | [] => none
  | c :: r => if pred c then some (c, r) else none

/-- chumsky `just(c)`. -/
def pjust (c : Char) : P Char := pfilter (· == c)

/-- Greedy repetition, fuelled.  Every repeated sub-parser of this grammar
consumes input on success, so fuel `length + 1` (see `pmany`) is never
exhausted on a path the Rust code can take (chumsky itself would loop forever
on a zero-consumption repetition). -/
def manyAux {α : Type} (p : P α) : Nat → P (List α)
  | 0 => fun s => some ([], s)
  | fuel + 1 => fun s =>
    match p s with
    | none => some ([], s)
    | some (a, s') =>
      match manyAux p fuel s' with
      | none => none
      | some (as, s'') => some (a :: as, s'')

/-- chumsky `repeated()`: zero or more, greedy. -/
def pmany {α : Type} (p : P α) : P (List α) := fun s => manyAux p (s.length + 1) s

/-- chumsky `repeated().at_least(n)`: greedy, then fail when fewer than `n`
items were collected. -/
def patLeast {α : Type} (n : Nat) (p : P α) : P (List α) := fun s =>
  match pmany p s with
  | none => none
  | some (as, s') => if n ≤ as.length then some (as, s') else none

/-- chumsky `repeated().exactly(n)`: exactly `n` repetitions, no greed past
`n`. -/
def pexactly {α : Type} : Nat → P α → P (List α)
  | 0, _ => fun s => some ([], s)
  | n + 1, p => fun s =>
    match p s with
    | none => none
    | some (a, s') =>
      match pexactly n p s' with
      | none => none
      | some (as, s'') => some (a :: as, s'')

/-- chumsky `padded`: skip whitespace on both sides. -/
def ppadded {α : Type} (p : P α) : P α :=
  pignoreThen (pmany (pfilter is_whitespace)) (pthenIgnore p (pmany (pfilter is_whitespace)))

/-- chumsky `delimited_by(just l, just r)`. -/
def pdelimitedBy {α : Type} (l r : Char) (p : P α) : P α :=
  pignoreThen (pjust l) (pthenIgnore p (pjust r))

/-- chumsky `separated_by(just(','))` with its defaults: zero or more items,
no leading or trailing separator. -/
def psepByComma {α : Type} (item : P α) : P (List α) := fun s =>
  match item s with
  | none => some ([], s)
  | some (a, s') =>
    match pmany (pignoreThen (pjust ',') item) s' with
    | none => none
    | some (as, s'') => some (a :: as, s'')

/-- chumsky `text::newline()`: `\r\n` or one of the line-break characters. -/
def pnewline : P Unit := fun s =>
  match s with
  | '\r' :: '\n' :: r => some ((), r)
  | c :: r =>
    if c = '\n' || c = '\x0B' || c = '\x0C' || c = '\r' || c = '\u0085' ||
        c = '\u2028' || c = '\u2029' then
      some ((), r)
    else none
  | [] => none

/-! Section: The grammar (`parser()` in `lib.rs`) -/

/-- Rule `country_name`: at least 4 non-control, non-colon ASCII characters. -/
def country_name : P (List Char) := patLeast 4 (pfilter ascii_not_comma)

/-- Rule `cq_zone`: decimal digits parsed as `u8`. -/
def cq_zone : P Nat := ptryMap parse_u8 (patLeast 1 (pfilter Char.isDigit))

/-- Rule `itu_zone`: decimal digits parsed as `u8`. -/
def itu_zone : P Nat := ptryMap parse_u8 (patLeast 1 (pfilter Char.isDigit))

/-- Rule `continent`: exactly two non-control, non-colon ASCII characters, packed
into a `TinyAsciiStr<2>`. -/
def continent : P (List Char) := ptryMap (tiny_ascii_str 2) (pexactly 2 (pfilter ascii_not_comma))

/-- Rule `latitude`: a run of float characters parsed as `f32`. -/
def latitude : P Rat := ptryMap parse_f32 (pmany (pfilter ascii_float))

/-- Rule `longitude`: a run of float characters parsed as `f32`. -/
def longitude : P Rat := ptryMap parse_f32 (pmany (pfilter ascii_float))

/-- Rule `time_offset`: a run of float characters parsed as `f32`. -/
def time_offset : P Rat := ptryMap parse_f32 (pmany (pfilter ascii_float))

/-- Rule `primary_prefix` of the source: at least one non-control, non-colon ASCII
character, packed into a `TinyAsciiStr<8>`. -/
def primary_pfx : P (List Char) := ptryMap (tiny_ascii_str 8) (patLeast 1 (pfilter ascii_not_comma))

/-- The inner alias-token parser (`prefix` in the source): a possibly empty
run of ASCII alphanumerics and `/`. -/
def dxcc_pfx : P (List Char) := pmany (pfilter (fun c => is_ascii_alphanumeric c || c == '/'))

/-- Rule `callsign`: `=` followed by an alias token. -/
def callsign : P (List Char) := pignoreThen (pjust '=') dxcc_pfx

/-- Rule `over_ride`: the override annotations.  NOTE the source maps `[digits]` to
`Override::CqZone` and `(digits)` to `Override::ItuZone`, the reverse of the
comment directly above it in `lib.rs` (and of the CTY.DAT format description);
the embedding follows the code. -/
def over_ride : P Override :=
  por (pmap Override.CqZone (pdelimitedBy '[' ']' cq_zone))
    (por (pmap Override.ItuZone (pdelimitedBy '(' ')' itu_zone))
      (por (pmap Override.Continent (pdelimitedBy '\x7b' '\x7d' continent))
        (por (pmap Override.TimeOffset (pdelimitedBy '~' '~' time_offset))
          (pmap (fun lt => Override.Coordinates lt.1 lt.2)
            (pdelimitedBy '<' '>' (pthen (pthenIgnore latitude (pjust '/')) longitude))))))

/-- Helper `empty_is_none` from `lib.rs`. -/
def empty_is_none {α : Type} (l : List α) : Option (List α) :=
  if l.isEmpty then none else some l

/-- Rule `one_dxcc`: an exact callsign (capacity 16) or an alias token
(capacity 8), each followed by any number of overrides. -/
def one_dxcc : P PrefixEntry :=
  por
    (ptryMap
      (fun co => (tiny_ascii_str 16 co.1).map (fun cs => PrefixEntry.Callsign cs (empty_is_none co.2)))
      (pthen callsign (pmany over_ride)))
    (ptryMap
      (fun po => (tiny_ascii_str 8 po.1).map (fun p => PrefixEntry.Pfx p (empty_is_none po.2)))
      (pthen dxcc_pfx (pmany over_ride)))

/-- Rule `prefix_list` of the source: comma-separated padded alias entries,
terminated by `;`. -/
def prefix_list_p : P (List PrefixEntry) := pthenIgnore (psepByComma (ppadded one_dxcc)) (pjust ';')

/-- Separator rule `just(':').padded()`. -/
def colon_p : P Char := ppadded (pjust ':')

/-- Rule `one_country`: the full record grammar, ending in a newline. -/
def one_country : P Country :=
  pmap
    (fun v =>
      match v with
      | ((((((((nm, cq), itu), cont), lat), lon), toff), pp), pl) =>
        { country_name := nm, cq_zone := cq, itu_zone := itu, continent := cont,
          latitude := lat, longitude := lon, time_offset := toff,
          primary_pfx := pp, prefix_list := pl })
    (pthenIgnore
      (pthen
        (pthenIgnore
          (pthen
            (pthenIgnore
              (pthen
                (pthenIgnore
                  (pthen
                    (pthenIgnore
                      (pthen
                        (pthenIgnore
                          (pthen
                            (pthenIgnore
                              (pthen
                                (pthenIgnore
                                  (pthen (pthenIgnore country_name colon_p) cq_zone)
                                  colon_p)
                                itu_zone)
                              colon_p)
                            continent)
                          colon_p)
                        latitude)
                      colon_p)
                    longitude)
                  colon_p)
                time_offset)
              colon_p)
            primary_pfx)
          colon_p)
        prefix_list_p)
      pnewline)

/-- Function `parser()`: records repeated; `Parser::parse` does not require the input
to be exhausted, so trailing unparseable input is ignored. -/
def parser : P (List Country) := pmany one_country

/-! Section: The resolution engine (`Ctydat`) -/

/-- The `Ctydat` struct: a `PatriciaMap` is modelled as an association list
with unique keys (insertion replaces). -/
structure Ctydat where
  callsign_trie : List (List Char × (Country × List Override))
  prefix_trie : List (List Char × (Country × List Override))
deriving DecidableEq, Repr

/-- Model of `PatriciaMap::insert_str`: insert or replace the binding of `k`. -/
def trie_insert {V : Type} (k : List Char) (v : V) :
    List (List Char × V) → List (List Char × V)
  | [] => [(k, v)]
  | (k', v') :: rest => if k' = k then (k, v) :: rest else (k', v') :: trie_insert k v rest

/-- Model of `PatriciaMap::get`: exact-key lookup. -/
def trie_get {V : Type} (k : List Char) : List (List Char × V) → Option V
  | [] => none
  | (k', v) :: rest => if k' = k then some v else trie_get k rest

/-- Model of `PatriciaMap::get_longest_common_prefix`: among the entries whose key is a
leading substring of `q`, the one with the longest key. -/
def trie_get_longest_common_pfx {V : Type} (q : List Char) :
    List (List Char × V) → Option (List Char × V)
  | [] => none
  | (k, v) :: rest =>
    match trie_get_longest_common_pfx q rest with
    | none => if k.isPrefixOf q then some (k, v) else none
    | some (k', v') =>
      if k.isPrefixOf q then
        if k.length < k'.length then some (k', v') else some (k, v)
      else some (k', v')

/-- One iteration of the alias loop in `Ctydat::from_str`: lowercase the token
and insert the shared template together with the alias's override chain. -/
def insert_alias (country : Country) (ct : Ctydat) (pe : PrefixEntry) : Ctydat :=
  match pe with
  | .Callsign cs ors =>
    { ct with callsign_trie := trie_insert (to_ascii_lowercase cs) (country, ors.getD []) ct.callsign_trie }
  | .Pfx p ors =>
    { ct with prefix_trie := trie_insert (to_ascii_lowercase p) (country, ors.getD []) ct.prefix_trie }

/-- One iteration of the country loop in `Ctydat::from_str`: detach the alias
list, clear it on the shared template, and insert every alias. -/
def insert_country (ct : Ctydat) (c : Country) : Ctydat :=
  c.prefix_list.foldl (insert_alias { c with prefix_list := [] }) ct

/-- Function `Ctydat::from_str` (its `io::Result` is modelled as `Option`): parse, then
build both tries. -/
def Ctydat.from_str (s : String) : Option Ctydat :=
  match parser s.data with
  | none => none
  | some (countries, _) => some (countries.foldl insert_country ⟨[], []⟩)

/-- The body of `Ctydat::find_country_for_callsign` after the query has been
lowercased (the source binds `let callsign = callsign.to_lowercase()` and then
uses it): try the exact trie, then the longest matching key of the prefix
trie. -/
def Ctydat.find_lowered (ct : Ctydat) (cs : List Char) : Option Country :=
  match trie_get cs ct.callsign_trie with
  | some (country, overrides) => some (country.implement_overrides overrides)
  | none =>
    match trie_get_longest_common_pfx cs ct.prefix_trie with
    | some (_, country, overrides) => some (country.implement_overrides overrides)
    | none => none

/-- Method `Ctydat::find_country_for_callsign`: lowercase the query, then look it
up. -/
def Ctydat.find_country_for_callsign (ct : Ctydat) (cs0 : String) : Option Country :=
  ct.find_lowered (to_lowercase cs0.data)

/-! Section: Derived notions used by the statements -/

/-- The alias token carried by an alias entry. -/
def pfx_token : PrefixEntry → List Char
  | .Callsign cs _ => cs
  | .Pfx p _ => p

/-- The value the last CQ-zone override of a chain carries, if any. -/
def last_cq (l : List Override) : Option Nat :=
  l.foldl (fun a o => match o with | .CqZone z => some z | _ => a) none

/-- The value the last ITU-zone override of a chain carries, if any. -/
def last_itu (l : List Override) : Option Nat :=
  l.foldl (fun a o => match o with | .ItuZone z => some z | _ => a) none

/-- The pair the last coordinates override of a chain carries, if any. -/
def last_coord (l : List Override) : Option (Rat × Rat) :=
  l.foldl (fun a o => match o with | .Coordinates la lo => some (la, lo) | _ => a) none

/-- The code the last continent override of a chain carries, if any. -/
def last_cont (l : List Override) : Option (List Char) :=
  l.foldl (fun a o => match o with | .Continent c => some c | _ => a) none

/-- The value the last time-offset override of a chain carries, if any. -/
def last_toff (l : List Override) : Option Rat :=
  l.foldl (fun a o => match o with | .TimeOffset t => some t | _ => a) none

/-- Two characters are equal up to ASCII letter case. -/
def ascii_case_eq_char (c d : Char) : Bool :=
  c == d || (65 ≤ c.toNat && c.toNat ≤ 90 && d.toNat == c.toNat + 32) ||
    (65 ≤ d.toNat && d.toNat ≤ 90 && c.toNat == d.toNat + 32)

/-- Two strings are equal up to ASCII letter case. -/
def ascii_case_eq : List Char → List Char → Bool
  | [], [] => true
  | c :: cs, d :: ds => ascii_case_eq_char c d && ascii_case_eq cs ds
  | _, _ => false

/-! Section: Concrete inputs and their expected values -/

/-- The single-record input of the spec's concrete scenario. -/
def fin_line : String := "Finland: 15: 18: EU: 61.38: -24.82: -2.0: OH: OH,=OH2ET/SA;\n"

/-- The Finland template (the record as the index retains it, alias list
cleared). -/
def fin_template : Country :=
  { country_name := "Finland".data, cq_zone := 15, itu_zone := 18, continent := "EU".data,
    latitude := mkRat 6138 100, longitude := mkRat (-2482) 100, time_offset := mkRat (-2) 1,
    primary_pfx := "OH".data, prefix_list := [] }

/-- The Finland record as parsed, alias list attached. -/
def fin_record : Country :=
  { fin_template with
    prefix_list := [PrefixEntry.Pfx "OH".data none, PrefixEntry.Callsign "OH2ET/SA".data none] }

/-- The index built from `fin_line`. -/
def fin_ct : Ctydat :=
  { callsign_trie := [("oh2et/sa".data, (fin_template, []))],
    prefix_trie := [("oh".data, (fin_template, []))] }

/-- A record carrying the spec's longest-prefix example aliases `K` and `KH6`,
with distinct overrides (`[31]` is a CQ-zone override in the implemented
mapping). -/
def us_line : String := "United States: 5: 8: NA: 37.53: 91.67: 5.0: K: K,KH6[31];\n"

/-- The United States template. -/
def us_template : Country :=
  { country_name := "United States".data, cq_zone := 5, itu_zone := 8, continent := "NA".data,
    latitude := mkRat 3753 100, longitude := mkRat 9167 100, time_offset := mkRat 5 1,
    primary_pfx := "K".data, prefix_list := [] }

/-- The index built from `us_line`. -/
def us_ct : Ctydat :=
  { callsign_trie := [],
    prefix_trie := [("k".data, (us_template, [])),
                    ("kh6".data, (us_template, [Override.CqZone 31]))] }

/-- The Finland record with its terminating `;` removed. -/
def no_semi_line : String := "Finland: 15: 18: EU: 61.38: -24.82: -2.0: OH: OH\n"

/-- The Finland record with a non-numeric CQ-zone field. -/
def bad_zone_line : String := "Finland: xx: 18: EU: 61.38: -24.82: -2.0: OH: OH;\n"

/-- A CQ zone that overflows `u8`. -/
def overflow_zone_line : String := "Finland: 256: 18: EU: 61.38: -24.82: -2.0: OH: OH;\n"

/-- A three-character continent field. -/
def bad_continent_line : String := "Finland: 15: 18: EUR: 61.38: -24.82: -2.0: OH: OH;\n"

/-- A malformed latitude. -/
def bad_float_line : String := "Finland: 15: 18: EU: 61..38: -24.82: -2.0: OH: OH;\n"

/-- A missing `:` separator after the time offset. -/
def missing_sep_line : String := "Finland: 15: 18: EU: 61.38: -24.82: -2.0 OH: OH;\n"

/-- A well-formed record followed by a record with a malformed zone field. -/
def good_then_bad : String :=
  fin_line ++ "Germany: xx: 28: EU: 51.0: -10.0: -1.0: DL: DL;\n"

/-- A 9-character prefix alias token (capacity is 8). -/
def over_alias_line : String := "Finland: 15: 18: EU: 61.38: -24.82: -2.0: OH: ABCDEFGHI;\n"

/-- A 17-character exact-callsign token (capacity is 16). -/
def over_callsign_line : String :=
  "Finland: 15: 18: EU: 61.38: -24.82: -2.0: OH: =ABCDEFGHIJKLMNOPQ;\n"

/-- A 9-character primary prefix (capacity is 8). -/
def over_primary_line : String := "Finland: 15: 18: EU: 61.38: -24.82: -2.0: ABCDEFGHI: OH;\n"

/-- An 8-character prefix alias and a 16-character exact callsign: both at
capacity, both accepted. -/
def boundary_line : String :=
  "Finland: 15: 18: EU: 61.38: -24.82: -2.0: OH: ABCDEFGH,=ABCDEFGHIJKLMNOP;\n"

/-- The index built from `boundary_line`. -/
def boundary_ct : Ctydat :=
  { callsign_trie := [("abcdefghijklmnop".data, (fin_template, []))],
    prefix_trie := [("abcdefgh".data, (fin_template, []))] }

/-- A record whose alias list does not mention its primary prefix `OH`. -/
def of_line : String := "Finland: 15: 18: EU: 61.38: -24.82: -2.0: OH: OF;\n"

/-- The record `of_line` parses to. -/
def of_record : Country :=
  { fin_template with prefix_list := [PrefixEntry.Pfx "OF".data none] }

/-! Section: Helper lemmas about the tries -/

theorem trie_lcp_none {V : Type} {q : List Char} {m : List (List Char × V)}
    (h : trie_get_longest_common_pfx q m = none) :
    ∀ kv ∈ m, ¬ (kv.1.isPrefixOf q = true) := by
  induction m with
  | nil => simp
  | cons hd tl ih =>
    obtain ⟨k0, v0⟩ := hd
    unfold trie_get_longest_common_pfx at h
    cases hrec : trie_get_longest_common_pfx q tl with
    | none =>
      simp only [hrec] at h
      intro kv hkv
      rcases List.mem_cons.mp hkv with heq | hmem
      · subst heq
        intro hp
        rw [if_pos hp] at h
        exact Option.noConfusion h
      · exact ih hrec kv hmem
    | some kv' =>
      obtain ⟨k1, v1⟩ := kv'
      simp only [hrec] at h
      by_cases hp : k0.isPrefixOf q = true
      · rw [if_pos hp] at h
        split at h <;> exact Option.noConfusion h
      · rw [if_neg hp] at h
        exact Option.noConfusion h

theorem trie_lcp_some {V : Type} {q k : List Char} {v : V} {m : List (List Char × V)}
    (h : trie_get_longest_common_pfx q m = some (k, v)) :
    (k, v) ∈ m ∧ k.isPrefixOf q = true ∧
      ∀ k' v', (k', v') ∈ m → k'.isPrefixOf q = true → k'.length ≤ k.length := by
  induction m generalizing k v with
  | nil => simp [trie_get_longest_common_pfx] at h
  | cons hd tl ih =>
    obtain ⟨k0, v0⟩ := hd
    unfold trie_get_longest_common_pfx at h
    cases hrec : trie_get_longest_common_pfx q tl with
    | none =>
      simp only [hrec] at h
      by_cases hp : k0.isPrefixOf q = true
      · rw [if_pos hp] at h
        simp only [Option.some.injEq, Prod.mk.injEq] at h
        obtain ⟨hk, hv⟩ := h
        subst hk; subst hv
        refine ⟨List.mem_cons_self _ _, hp, ?_⟩
        intro k' v' hmem hp'
        rcases List.mem_cons.mp hmem with heq | hmem'
        · simp only [Prod.mk.injEq] at heq
          rw [heq.1]
        · exact absurd hp' (trie_lcp_none hrec (k', v') hmem')
      · rw [if_neg hp] at h
        exact Option.noConfusion h
    | some kv' =>
      obtain ⟨k1, v1⟩ := kv'
      simp only [hrec] at h
      obtain ⟨hmem1, hp1, hmax1⟩ := ih hrec
      by_cases hp : k0.isPrefixOf q = true
      · rw [if_pos hp] at h
        by_cases hlen : k0.length < k1.length
        · rw [if_pos hlen] at h
          simp only [Option.some.injEq, Prod.mk.injEq] at h
          obtain ⟨hk, hv⟩ := h
          subst hk; subst hv
          refine ⟨List.mem_cons_of_mem _ hmem1, hp1, ?_⟩
          intro k' v' hmem hp'
          rcases List.mem_cons.mp hmem with heq | hmem'
          · simp only [Prod.mk.injEq] at heq
            rw [heq.1]; omega
          · exact hmax1 k' v' hmem' hp'
        · rw [if_neg hlen] at h
          simp only [Option.some.injEq, Prod.mk.injEq] at h
          obtain ⟨hk, hv⟩ := h
          subst hk; subst hv
          refine ⟨List.mem_cons_self _ _, hp, ?_⟩
          intro k' v' hmem hp'
          rcases List.mem_cons.mp hmem with heq | hmem'
          · simp only [Prod.mk.injEq] at heq
            rw [heq.1]
          · exact le_trans (hmax1 k' v' hmem' hp') (by omega)
      · rw [if_neg hp] at h
        simp only [Option.some.injEq, Prod.mk.injEq] at h
        obtain ⟨hk, hv⟩ := h
        subst hk; subst hv
        refine ⟨List.mem_cons_of_mem _ hmem1, hp1, ?_⟩
        intro k' v' hmem hp'
        rcases List.mem_cons.mp hmem with heq | hmem'
        · simp only [Prod.mk.injEq] at heq
          exact absurd (heq.1 ▸ hp') hp
        · exact hmax1 k' v' hmem' hp'

/-! Section: Claim theorems -/

/-- Claim C1 (code_bug): the claim states that `[` digits `]` parses to an
ITU-zone override and `(` digits `)` to a CQ-zone override, agreeing with the
comment right above `over_ride` in `lib.rs` and with the CTY.DAT format; the
implementation does the reverse.  This theorem evaluates the embedded
`over_ride` at the failing inputs: `[5]` yields `CqZone 5` and `(7)` yields
`ItuZone 7`, and an alias `OH[5](7)` collects `[CqZone 5, ItuZone 7]`. -/
theorem claim_C1 :
    over_ride "[5]".data = some (Override.CqZone 5, []) ∧
    over_ride "(7)".data = some (Override.ItuZone 7, []) ∧
    one_dxcc "OH[5](7)".data =
      some (PrefixEntry.Pfx "OH".data (some [Override.CqZone 5, Override.ItuZone 7]), []) := by
  decide

/-- Claim C5 (confirmed): the Finland line parses to exactly one record with
the stated field values (61.38 = 6138/100, -24.82 = -2482/100, -2.0 = -2);
on the built index, `OH3AB` has no exact match and resolves through the `oh`
prefix entry to the unmodified template, while `OH2ET/SA` hits the
exact-callsign entry. -/
theorem claim_C5 :
    parser fin_line.data = some ([fin_record], []) ∧
    fin_record.country_name = "Finland".data ∧
    fin_record.cq_zone = 15 ∧
    fin_record.itu_zone = 18 ∧
    fin_record.continent = "EU".data ∧
    fin_record.latitude = mkRat 6138 100 ∧
    fin_record.longitude = mkRat (-2482) 100 ∧
    fin_record.time_offset = mkRat (-2) 1 ∧
    Ctydat.from_str fin_line = some fin_ct ∧
    trie_get (to_lowercase "OH3AB".data) fin_ct.callsign_trie = none ∧
    trie_get_longest_common_pfx (to_lowercase "OH3AB".data) fin_ct.prefix_trie =
      some ("oh".data, (fin_template, [])) ∧
    fin_ct.find_country_for_callsign "OH3AB" = some fin_template ∧
    trie_get (to_lowercase "OH2ET/SA".data) fin_ct.callsign_trie = some (fin_template, []) ∧
    fin_ct.find_country_for_callsign "OH2ET/SA" = some fin_template := by
  decide

/-- Claim C7 (code_bug): the claim (and the spec's error policy) says a record
failing its local grammar makes the build return an error and no index.  In
the code, `parser().parse` never demands that the input be consumed, and a
top-level `repeated()` cannot fail, so `Ctydat::from_str` never reports a
parse error: each malformed input below yields `Ok` with an empty index, and
a well-formed record followed by a malformed one yields `Ok` with an index
holding only the first record — the malformed record is silently dropped. -/
theorem claim_C7 :
    Ctydat.from_str no_semi_line = some ⟨[], []⟩ ∧
    Ctydat.from_str bad_zone_line = some ⟨[], []⟩ ∧
    Ctydat.from_str overflow_zone_line = some ⟨[], []⟩ ∧
    Ctydat.from_str bad_continent_line = some ⟨[], []⟩ ∧
    Ctydat.from_str bad_float_line = some ⟨[], []⟩ ∧
    Ctydat.from_str missing_sep_line = some ⟨[], []⟩ ∧
    parser no_semi_line.data = some ([], no_semi_line.data) ∧
    Ctydat.from_str good_then_bad = some fin_ct ∧
    fin_ct.prefix_trie ≠ [] := by
  decide

/-- Claim C10 (code_bug): the capacity limits are real — a 9-character prefix
alias, a 17-character exact callsign and a 9-character primary prefix each
fail `TinyAsciiStr` conversion and make their record unparseable, while the
8- and 16-character forms are accepted — but, for the same missing
end-of-input check as in C7, `from_str` returns `Ok` with the malformed
record dropped instead of failing with a parse error. -/
theorem claim_C10 :
    tiny_ascii_str 8 "ABCDEFGHI".data = none ∧
    tiny_ascii_str 16 "ABCDEFGHIJKLMNOPQ".data = none ∧
    continent "ÉU".data = none ∧
    Ctydat.from_str over_alias_line = some ⟨[], []⟩ ∧
    Ctydat.from_str over_callsign_line = some ⟨[], []⟩ ∧
    Ctydat.from_str over_primary_line = some ⟨[], []⟩ ∧
    Ctydat.from_str boundary_line = some boundary_ct := by
  decide

/-- Claim C9, counterexample: `of_line` parses successfully to a record whose
primary prefix is `OH` but whose alias list contains only `OF` — the alias
list of a parsed record need not contain the primary prefix, refuting the
second half of the claim. -/
theorem claim_C9_cex :
    parser of_line.data = some ([of_record], []) ∧
    of_record.primary_pfx = "OH".data ∧
    of_record.prefix_list.all (fun pe => pfx_token pe != of_record.primary_pfx) = true := by
  decide

/-- Claim C2 (confirmed): whenever the lowercased query is a key of the
exact-callsign trie, lookup returns that entry's template with that entry's
override chain applied, and the result does not depend on the prefix trie at
all — replacing the prefix trie by any other changes nothing. -/
theorem claim_C2 (ct : Ctydat) (q : String) (country : Country) (ov : List Override)
    (h : trie_get (to_lowercase q.data) ct.callsign_trie = some (country, ov)) :
    ct.find_country_for_callsign q = some (country.implement_overrides ov) ∧
    ∀ pt : List (List Char × (Country × List Override)),
      Ctydat.find_country_for_callsign ⟨ct.callsign_trie, pt⟩ q =
        ct.find_country_for_callsign q := by
  constructor
  · simp only [Ctydat.find_country_for_callsign, Ctydat.find_lowered, h]
  · intro pt
    simp only [Ctydat.find_country_for_callsign, Ctydat.find_lowered, h]

/-- Witness for C2: the exact entry `oh2et/sa` of the Finland index resolves
through the exact-callsign trie. -/
theorem claim_C2_witness :
    trie_get (to_lowercase "OH2ET/SA".data) fin_ct.callsign_trie = some (fin_template, []) ∧
    fin_ct.find_country_for_callsign "OH2ET/SA" =
      some (fin_template.implement_overrides []) :=
  ⟨by decide, (claim_C2 fin_ct "OH2ET/SA" fin_template [] (by decide)).1⟩

/-- Claim C3 (confirmed): with no exact-callsign match, a successful lookup
result comes from a prefix-trie entry whose key is a leading substring of the
lowercased query of maximal length among all such keys, with its override
chain applied; concretely, with aliases `K` and `KH6`, `KH6AB` resolves
through `kh6` (CQ zone overridden to 31) and `K1AB` through `k` (template
CQ zone 5). -/
theorem claim_C3 :
    (∀ (ct : Ctydat) (q : String) (c : Country),
      trie_get (to_lowercase q.data) ct.callsign_trie = none →
      ct.find_country_for_callsign q = some c →
      ∃ k cn ov, (k, (cn, ov)) ∈ ct.prefix_trie ∧
        k.isPrefixOf (to_lowercase q.data) = true ∧
        (∀ k' v, (k', v) ∈ ct.prefix_trie → k'.isPrefixOf (to_lowercase q.data) = true →
          k'.length ≤ k.length) ∧
        c = cn.implement_overrides ov) ∧
    Ctydat.from_str us_line = some us_ct ∧
    us_ct.find_country_for_callsign "KH6AB" =
      some (us_template.implement_overrides [Override.CqZone 31]) ∧
    (us_template.implement_overrides [Override.CqZone 31]).cq_zone = 31 ∧
    us_ct.find_country_for_callsign "K1AB" = some (us_template.implement_overrides []) ∧
    (us_template.implement_overrides []).cq_zone = 5 := by
  refine ⟨?_, by decide, by decide, by decide, by decide, by decide⟩
  intro ct q c hnone hfind
  unfold Ctydat.find_country_for_callsign Ctydat.find_lowered at hfind
  simp only [hnone] at hfind
  cases hlcp : trie_get_longest_common_pfx (to_lowercase q.data) ct.prefix_trie with
  | none => simp [hlcp] at hfind
  | some kv =>
    obtain ⟨k, cn, ov⟩ := kv
    simp only [hlcp, Option.some.injEq] at hfind
    obtain ⟨hmem, hpfx, hmax⟩ := trie_lcp_some hlcp
    exact ⟨k, cn, ov, hmem, hpfx, fun k' v hm hp => hmax k' v hm hp, hfind.symm⟩

/-- Witness for C3: the general part applied to the `K`/`KH6` index and the
query `KH6AB`. -/
theorem claim_C3_witness :
    trie_get (to_lowercase "KH6AB".data) us_ct.callsign_trie = none ∧
    us_ct.find_country_for_callsign "KH6AB" =
      some (us_template.implement_overrides [Override.CqZone 31]) ∧
    (∃ k cn ov, (k, (cn, ov)) ∈ us_ct.prefix_trie ∧
      k.isPrefixOf (to_lowercase "KH6AB".data) = true ∧
      (∀ k' v, (k', v) ∈ us_ct.prefix_trie →
        k'.isPrefixOf (to_lowercase "KH6AB".data) = true → k'.length ≤ k.length) ∧
      us_template.implement_overrides [Override.CqZone 31] = cn.implement_overrides ov) :=
  ⟨by decide, by decide, claim_C3.1 us_ct "KH6AB" _ (by decide) (by decide)⟩

/-- Claim C8 (confirmed): lookup returns an `Option` and has no error
channel; it returns `none` exactly when the lowercased query is neither an
exact-callsign key nor an extension of any prefix-trie key. -/
theorem claim_C8 (ct : Ctydat) (q : String) :
    ct.find_country_for_callsign q = none ↔
      (trie_get (to_lowercase q.data) ct.callsign_trie = none ∧
       ∀ kv ∈ ct.prefix_trie, ¬ (kv.1.isPrefixOf (to_lowercase q.data) = true)) := by
  have hexp : ct.find_country_for_callsign q =
      (match trie_get (to_lowercase q.data) ct.callsign_trie with
       | some (country, overrides) => some (country.implement_overrides overrides)
       | none =>
         match trie_get_longest_common_pfx (to_lowercase q.data) ct.prefix_trie with
         | some (_, country, overrides) => some (country.implement_overrides overrides)
         | none => none) := rfl
  constructor
  · intro hres
    cases hget : trie_get (to_lowercase q.data) ct.callsign_trie with
    | some v =>
      obtain ⟨country, ov⟩ := v
      rw [hexp] at hres
      simp only [hget] at hres
      exact Option.noConfusion hres
    | none =>
      refine ⟨rfl, ?_⟩
      rw [hexp] at hres
      simp only [hget] at hres
      cases hlcp : trie_get_longest_common_pfx (to_lowercase q.data) ct.prefix_trie with
      | some kv =>
        obtain ⟨k, cn, ov⟩ := kv
        simp only [hlcp] at hres
        exact Option.noConfusion hres
      | none => exact trie_lcp_none hlcp
  · intro hc
    rw [hexp]
    simp only [hc.1]
    cases hlcp : trie_get_longest_common_pfx (to_lowercase q.data) ct.prefix_trie with
    | none => rfl
    | some kv =>
      obtain ⟨k, cn, ov⟩ := kv
      obtain ⟨hmem, hpfx, _⟩ := trie_lcp_some hlcp
      exact absurd hpfx (hc.2 (k, (cn, ov)) hmem)

/-- Witness for C8: `W1AW` matches nothing in the `K`/`KH6` index. -/
theorem claim_C8_witness :
    us_ct.find_country_for_callsign "W1AW" = none :=
  (claim_C8 us_ct "W1AW").mpr ⟨by decide, by decide⟩

theorem implement_overrides_concat (c : Country) (ors : List Override) (o : Override) :
    c.implement_overrides (ors ++ [o]) = apply_override (c.implement_overrides ors) o := by
  simp [Country.implement_overrides, List.foldl_append]

theorem last_cq_concat (l : List Override) (o : Override) :
    last_cq (l ++ [o]) = match o with | .CqZone z => some z | _ => last_cq l := by
  cases o <;> simp [last_cq, List.foldl_append]

theorem last_itu_concat (l : List Override) (o : Override) :
    last_itu (l ++ [o]) = match o with | .ItuZone z => some z | _ => last_itu l := by
  cases o <;> simp [last_itu, List.foldl_append]

theorem last_coord_concat (l : List Override) (o : Override) :
    last_coord (l ++ [o]) =
      match o with | .Coordinates la lo => some (la, lo) | _ => last_coord l := by
  cases o <;> simp [last_coord, List.foldl_append]

theorem last_cont_concat (l : List Override) (o : Override) :
    last_cont (l ++ [o]) = match o with | .Continent cc => some cc | _ => last_cont l := by
  cases o <;> simp [last_cont, List.foldl_append]

theorem last_toff_concat (l : List Override) (o : Override) :
    last_toff (l ++ [o]) = match o with | .TimeOffset t => some t | _ => last_toff l := by
  cases o <;> simp [last_toff, List.foldl_append]

/-- Claim C4 (confirmed): applying an override chain to a template changes
exactly the fields named by its overrides — each zone, coordinate, continent
and time-offset field ends up at the value carried by the last override of its
kind, or at the template's value when no override names it — while the name
and primary prefix always pass through; the alias list, cleared by the method,
equals the template's on templates (whose alias list is empty). -/
theorem claim_C4 (c : Country) (ors : List Override) :
    (c.implement_overrides ors).cq_zone = (last_cq ors).getD c.cq_zone ∧
    (c.implement_overrides ors).itu_zone = (last_itu ors).getD c.itu_zone ∧
    (c.implement_overrides ors).latitude = ((last_coord ors).map Prod.fst).getD c.latitude ∧
    (c.implement_overrides ors).longitude = ((last_coord ors).map Prod.snd).getD c.longitude ∧
    (c.implement_overrides ors).continent = (last_cont ors).getD c.continent ∧
    (c.implement_overrides ors).time_offset = (last_toff ors).getD c.time_offset ∧
    (c.implement_overrides ors).country_name = c.country_name ∧
    (c.implement_overrides ors).primary_pfx = c.primary_pfx ∧
    (c.prefix_list = [] → (c.implement_overrides ors).prefix_list = c.prefix_list) := by
  induction ors using List.reverseRecOn with
  | nil =>
    refine ⟨rfl, rfl, rfl, rfl, rfl, rfl, rfl, rfl, fun h => h.symm⟩
  | append_singleton l o ih =>
    obtain ⟨ih1, ih2, ih3, ih4, ih5, ih6, ih7, ih8, ih9⟩ := ih
    rw [implement_overrides_concat, last_cq_concat, last_itu_concat, last_coord_concat,
      last_cont_concat, last_toff_concat]
    cases o <;>
      exact ⟨by simp [apply_override, ih1], by simp [apply_override, ih2],
        by simp [apply_override, ih3], by simp [apply_override, ih4],
        by simp [apply_override, ih5], by simp [apply_override, ih6],
        by simp [apply_override, ih7], by simp [apply_override, ih8],
        fun h => by simp [apply_override, ih9 h]⟩

/-- Witness for C4: the spec's own example — a chain holding a single
`CqZone 5` override sets the CQ zone to 5 and leaves every other field of the
Finland template unchanged. -/
theorem claim_C4_witness :
    (fin_template.implement_overrides [Override.CqZone 5]).cq_zone =
      (last_cq [Override.CqZone 5]).getD fin_template.cq_zone ∧
    fin_template.prefix_list = [] ∧
    (fin_template.implement_overrides [Override.CqZone 5]).prefix_list =
      fin_template.prefix_list :=
  ⟨(claim_C4 fin_template [Override.CqZone 5]).1, rfl,
   (claim_C4 fin_template [Override.CqZone 5]).2.2.2.2.2.2.2.2 rfl⟩

theorem char_toNat_inj {a b : Char} (h : a.toNat = b.toNat) : a = b :=
  Char.ext (UInt32.ext h)

theorem char_toNat_ofNat {n : Nat} (h : n < 55296) : (Char.ofNat n).toNat = n := by
  simp [Char.ofNat, Char.toNat, Nat.isValidChar, h, Char.ofNatAux, UInt32.toNat,
    BitVec.toNat_ofNatLt]

theorem char_lower_of_upper {c : Char} (h : (65 ≤ c.toNat && c.toNat ≤ 90) = true) :
    (char_to_ascii_lowercase c).toNat = c.toNat + 32 := by
  simp only [char_to_ascii_lowercase, h, if_true]
  simp only [Bool.and_eq_true, decide_eq_true_eq] at h
  exact char_toNat_ofNat (by omega)

theorem char_lower_idem (c : Char) :
    char_to_ascii_lowercase (char_to_ascii_lowercase c) = char_to_ascii_lowercase c := by
  by_cases h : (65 ≤ c.toNat && c.toNat ≤ 90) = true
  · have h2 := char_lower_of_upper h
    unfold char_to_ascii_lowercase
    simp only [Bool.and_eq_true, decide_eq_true_eq] at h
    rw [if_neg]
    simp only [char_to_ascii_lowercase] at h2 ⊢
    rw [h2]
    simp only [Bool.and_eq_true, decide_eq_true_eq, not_and]
    omega
  · unfold char_to_ascii_lowercase
    rw [if_neg h, if_neg h]

theorem char_lower_case_eq {c d : Char} (h : ascii_case_eq_char c d = true) :
    char_to_ascii_lowercase c = char_to_ascii_lowercase d := by
  simp only [ascii_case_eq_char, Bool.or_eq_true, Bool.and_eq_true, beq_iff_eq,
    decide_eq_true_eq] at h
  rcases h with (h | ⟨⟨h1, h2⟩, h3⟩) | ⟨⟨h1, h2⟩, h3⟩
  · rw [h]
  · have hc : (65 ≤ c.toNat && c.toNat ≤ 90) = true := by
      simp only [Bool.and_eq_true, decide_eq_true_eq]; exact ⟨h1, h2⟩
    have hd : ¬((65 ≤ d.toNat && d.toNat ≤ 90) = true) := by
      simp only [Bool.and_eq_true, decide_eq_true_eq, not_and]; omega
    unfold char_to_ascii_lowercase
    rw [if_pos hc, if_neg hd]
    apply char_toNat_inj
    rw [char_toNat_ofNat (by omega)]
    omega
  · have hd : (65 ≤ d.toNat && d.toNat ≤ 90) = true := by
      simp only [Bool.and_eq_true, decide_eq_true_eq]; exact ⟨h1, h2⟩
    have hc : ¬((65 ≤ c.toNat && c.toNat ≤ 90) = true) := by
      simp only [Bool.and_eq_true, decide_eq_true_eq, not_and]; omega
    unfold char_to_ascii_lowercase
    rw [if_neg hc, if_pos hd]
    apply char_toNat_inj
    rw [char_toNat_ofNat (by omega)]
    omega

theorem ascii_case_eq_lower {s t : List Char} (h : ascii_case_eq s t = true) :
    to_lowercase s = to_lowercase t := by
  induction s generalizing t with
  | nil => cases t with
    | nil => rfl
    | cons d ds => simp [ascii_case_eq] at h
  | cons c cs ih =>
    cases t with
    | nil => simp [ascii_case_eq] at h
    | cons d ds =>
      simp only [ascii_case_eq, Bool.and_eq_true] at h
      simp only [to_lowercase, List.map_cons, List.cons.injEq]
      exact ⟨char_lower_case_eq h.1, ih h.2⟩

theorem to_ascii_lowercase_idem (s : List Char) :
    to_ascii_lowercase (to_ascii_lowercase s) = to_ascii_lowercase s := by
  induction s with
  | nil => rfl
  | cons c cs ih =>
    simp only [to_ascii_lowercase, List.map_cons, List.cons.injEq] at ih ⊢
    exact ⟨char_lower_idem c, ih⟩

theorem trie_insert_mem {V : Type} {m : List (List Char × V)} {k : List Char} {v : V}
    {kv : List Char × V} (h : kv ∈ trie_insert k v m) : kv = (k, v) ∨ kv ∈ m := by
  induction m with
  | nil =>
    simp only [trie_insert, List.mem_singleton] at h
    exact Or.inl h
  | cons hd tl ih =>
    obtain ⟨k0, v0⟩ := hd
    unfold trie_insert at h
    by_cases he : k0 = k
    · rw [if_pos he] at h
      rcases List.mem_cons.mp h with heq | hmem
      · exact Or.inl heq
      · exact Or.inr (List.mem_cons_of_mem _ hmem)
    · rw [if_neg he] at h
      rcases List.mem_cons.mp h with heq | hmem
      · exact Or.inr (heq ▸ List.mem_cons_self _ _)
      · rcases ih hmem with heq | hmem'
        · exact Or.inl heq
        · exact Or.inr (List.mem_cons_of_mem _ hmem')

/-- Keys of both tries are fixed points of ASCII lowercasing. -/
def lower_keys (ct : Ctydat) : Prop :=
  (∀ kv ∈ ct.callsign_trie, to_ascii_lowercase kv.1 = kv.1) ∧
  (∀ kv ∈ ct.prefix_trie, to_ascii_lowercase kv.1 = kv.1)

theorem insert_alias_keys {c : Country} {ct : Ctydat} {pe : PrefixEntry}
    (h : lower_keys ct) : lower_keys (insert_alias c ct pe) := by
  cases pe with
  | Callsign cs ors =>
    refine ⟨?_, h.2⟩
    intro kv hkv
    rcases trie_insert_mem hkv with heq | hmem
    · rw [heq]; exact to_ascii_lowercase_idem cs
    · exact h.1 kv hmem
  | Pfx p ors =>
    refine ⟨h.1, ?_⟩
    intro kv hkv
    rcases trie_insert_mem hkv with heq | hmem
    · rw [heq]; exact to_ascii_lowercase_idem p
    · exact h.2 kv hmem

theorem foldl_insert_alias_keys (c : Country) (pl : List PrefixEntry) (ct : Ctydat)
    (h : lower_keys ct) : lower_keys (pl.foldl (insert_alias c) ct) := by
  induction pl generalizing ct with
  | nil => exact h
  | cons pe tl ih => exact ih _ (insert_alias_keys h)

theorem insert_country_keys (ct : Ctydat) (c : Country) (h : lower_keys ct) :
    lower_keys (insert_country ct c) :=
  foldl_insert_alias_keys _ _ _ h

theorem foldl_insert_country_keys (countries : List Country) (ct : Ctydat)
    (h : lower_keys ct) : lower_keys (countries.foldl insert_country ct) := by
  induction countries generalizing ct with
  | nil => exact h
  | cons c tl ih => exact ih _ (insert_country_keys _ _ h)

/-- Claim C6 (confirmed): resolution is case-insensitive — queries equal up to
ASCII letter case resolve identically, a query resolves the same as its
lowercased form, every key of a built index is already lowercase, and the
spec's `oh2et`/`OH2ET` example holds on the Finland index. -/
theorem claim_C6 :
    (∀ (ct : Ctydat) (q r : String), ascii_case_eq q.data r.data = true →
      ct.find_country_for_callsign q = ct.find_country_for_callsign r) ∧
    (∀ (ct : Ctydat) (q : String),
      ct.find_country_for_callsign q =
        ct.find_country_for_callsign (String.mk (to_lowercase q.data))) ∧
    (∀ (s : String) (ct : Ctydat), Ctydat.from_str s = some ct → lower_keys ct) ∧
    fin_ct.find_country_for_callsign "oh2et" = fin_ct.find_country_for_callsign "OH2ET" ∧
    fin_ct.find_country_for_callsign "oh2et/sa" =
      fin_ct.find_country_for_callsign "OH2ET/SA" := by
  refine ⟨?_, ?_, ?_, by decide, by decide⟩
  · intro ct q r h
    unfold Ctydat.find_country_for_callsign
    rw [ascii_case_eq_lower h]
  · intro ct q
    unfold Ctydat.find_country_for_callsign
    show ct.find_lowered (to_lowercase q.data) =
      ct.find_lowered (to_lowercase (to_lowercase q.data))
    exact (congrArg ct.find_lowered (to_ascii_lowercase_idem q.data)).symm
  · intro s ct h
    unfold Ctydat.from_str at h
    cases hp : parser s.data with
    | none => rw [hp] at h; exact Option.noConfusion h
    | some res =>
      obtain ⟨countries, rest⟩ := res
      rw [hp] at h
      simp only [Option.some.injEq] at h
      rw [← h]
      exact foldl_insert_country_keys countries ⟨[], []⟩ ⟨by simp, by simp⟩

/-- Witness for C6: the case-insensitivity part applied to the concrete pair
`oh2et` / `OH2ET` on the Finland index. -/
theorem claim_C6_witness :
    ascii_case_eq "oh2et".data "OH2ET".data = true ∧
    fin_ct.find_country_for_callsign "oh2et" = fin_ct.find_country_for_callsign "OH2ET" :=
  ⟨by decide, claim_C6.1 fin_ct "oh2et" "OH2ET" (by decide)⟩

/-! Section: Inversion lemmas for the combinators, used for the C9 invariant -/

theorem pmap_eq_some {α β : Type} {f : α → β} {p : P α} {s : List Char} {b : β}
    {s' : List Char} (h : pmap f p s = some (b, s')) :
    ∃ a, p s = some (a, s') ∧ b = f a := by
  unfold pmap at h
  cases hp : p s with
  | none =>
    simp only [hp] at h
    exact Option.noConfusion h
  | some r =>
    obtain ⟨a, s₁⟩ := r
    simp only [hp, Option.some.injEq, Prod.mk.injEq] at h
    exact ⟨a, h.2 ▸ rfl, h.1.symm⟩

theorem pthen_eq_some {α β : Type} {p : P α} {q : P β} {s : List Char} {r : α × β}
    {s' : List Char} (h : pthen p q s = some (r, s')) :
    ∃ a s₁ b, p s = some (a, s₁) ∧ q s₁ = some (b, s') ∧ r = (a, b) := by
  unfold pthen at h
  cases hp : p s with
  | none =>
    simp only [hp] at h
    exact Option.noConfusion h
  | some pr =>
    obtain ⟨a, s₁⟩ := pr
    simp only [hp] at h
    cases hq : q s₁ with
    | none =>
      simp only [hq] at h
      exact Option.noConfusion h
    | some qr =>
      obtain ⟨b, s₂⟩ := qr
      simp only [hq, Option.some.injEq, Prod.mk.injEq] at h
      exact ⟨a, s₁, b, rfl, h.2 ▸ hq, h.1.symm⟩

theorem pthenIgnore_eq_some {α β : Type} {p : P α} {q : P β} {s : List Char} {a : α}
    {s' : List Char} (h : pthenIgnore p q s = some (a, s')) :
    ∃ s₁ b, p s = some (a, s₁) ∧ q s₁ = some (b, s') := by
  unfold pthenIgnore at h
  cases hp : p s with
  | none =>
    simp only [hp] at h
    exact Option.noConfusion h
  | some pr =>
    obtain ⟨a0, s₁⟩ := pr
    simp only [hp] at h
    cases hq : q s₁ with
    | none =>
      simp only [hq] at h
      exact Option.noConfusion h
    | some qr =>
      obtain ⟨b, s₂⟩ := qr
      simp only [hq, Option.some.injEq, Prod.mk.injEq] at h
      refine ⟨s₁, b, ?_, h.2 ▸ hq⟩
      rw [← h.1]

theorem pfilter_cons_false {pred : Char → Bool} {c : Char} {t : List Char}
    (h : pred c = false) : pfilter pred (c :: t) = none := by
  simp [pfilter, h]

theorem pmany_head_none {α : Type} {p : P α} {s : List Char} (h : p s = none) :
    pmany p s = some ([], s) := by
  unfold pmany
  unfold manyAux
  rw [h]

/-- At a `;` the alias-entry parser always succeeds without consuming input:
the empty run of alias characters is accepted and packs into an empty
`TinyAsciiStr<8>`. -/
theorem padded_one_dxcc_semi (t : List Char) :
    ppadded one_dxcc (';' :: t) = some (PrefixEntry.Pfx [] none, ';' :: t) := by
  have hws : pmany (pfilter is_whitespace) (';' :: t) = some ([], ';' :: t) :=
    pmany_head_none (pfilter_cons_false (by decide))
  have hdx : dxcc_pfx (';' :: t) = some ([], ';' :: t) :=
    pmany_head_none (pfilter_cons_false (by decide))
  have hov : over_ride (';' :: t) = none := by
    have h1 : pjust '[' (';' :: t) = none := pfilter_cons_false (by decide)
    have h2 : pjust '(' (';' :: t) = none := pfilter_cons_false (by decide)
    have h3 : pjust '\x7b' (';' :: t) = none := pfilter_cons_false (by decide)
    have h4 : pjust '~' (';' :: t) = none := pfilter_cons_false (by decide)
    have h5 : pjust '<' (';' :: t) = none := pfilter_cons_false (by decide)
    simp [over_ride, por, pmap, pdelimitedBy, pignoreThen, h1, h2, h3, h4, h5]
  have hcallsign : callsign (';' :: t) = none := by
    have h1 : pjust '=' (';' :: t) = none := pfilter_cons_false (by decide)
    simp [callsign, pignoreThen, h1]
  have hone : one_dxcc (';' :: t) = some (PrefixEntry.Pfx [] none, ';' :: t) := by
    simp [one_dxcc, por, ptryMap, pthen, hcallsign, hdx, pmany_head_none hov,
      empty_is_none, tiny_ascii_str]
  simp [ppadded, pignoreThen, pthenIgnore, hws, hone]

/-- A successfully parsed alias list is never empty: either its first entry
parsed, or the list parser consumed nothing — but then the terminating `;`
must be next, where an (empty) entry would have parsed. -/
theorem prefix_list_p_ne_nil {t : List Char} {pl : List PrefixEntry} {t' : List Char}
    (h : prefix_list_p t = some (pl, t')) : pl ≠ [] := by
  unfold prefix_list_p at h
  obtain ⟨s₁, b, h1, h2⟩ := pthenIgnore_eq_some h
  unfold psepByComma at h1
  cases hitem : ppadded one_dxcc t with
  | some av =>
    obtain ⟨a, s₂⟩ := av
    rw [hitem] at h1
    cases hm : pmany (pignoreThen (pjust ',') (ppadded one_dxcc)) s₂ with
    | none =>
      simp only [hm] at h1
      exact Option.noConfusion h1
    | some mr =>
      obtain ⟨as, s₃⟩ := mr
      simp only [hm, Option.some.injEq, Prod.mk.injEq] at h1
      rw [← h1.1]
      exact List.cons_ne_nil a as
  | none =>
    rw [hitem] at h1
    simp only [Option.some.injEq, Prod.mk.injEq] at h1
    obtain ⟨hpl, hs₁⟩ := h1
    subst hs₁
    cases t with
    | nil => simp [pjust, pfilter] at h2
    | cons c u =>
      simp only [pjust, pfilter] at h2
      by_cases hc : (c == ';') = true
      · have hceq : c = ';' := by simpa using hc
        subst hceq
        rw [padded_one_dxcc_semi u] at hitem
        exact Option.noConfusion hitem
      · rw [if_neg hc] at h2
        exact Option.noConfusion h2

theorem manyAux_mem {α : Type} {p : P α} {fuel : Nat} {s : List Char} {as : List α}
    {s' : List Char} (h : manyAux p fuel s = some (as, s')) :
    ∀ a ∈ as, ∃ t u, p t = some (a, u) := by
  induction fuel generalizing s as s' with
  | zero =>
    simp only [manyAux, Option.some.injEq, Prod.mk.injEq] at h
    rw [← h.1]
    intro a ha
    exact absurd ha (List.not_mem_nil a)
  | succ n ih =>
    unfold manyAux at h
    cases hp : p s with
    | none =>
      rw [hp] at h
      simp only [Option.some.injEq, Prod.mk.injEq] at h
      rw [← h.1]
      intro a ha
      exact absurd ha (List.not_mem_nil a)
    | some r =>
      obtain ⟨a0, s₁⟩ := r
      rw [hp] at h
      cases hm : manyAux p n s₁ with
      | none =>
        simp only [hm] at h
        exact Option.noConfusion h
      | some mr =>
        obtain ⟨as0, s₂⟩ := mr
        simp only [hm, Option.some.injEq, Prod.mk.injEq] at h
        rw [← h.1]
        intro a ha
        rcases List.mem_cons.mp ha with heq | hmem
        · exact ⟨s, s₁, heq ▸ hp⟩
        · exact ih hm a hmem

/-- Every record produced by `one_country` carries a non-empty alias list. -/
theorem one_country_prefix_list {s : List Char} {c : Country} {s' : List Char}
    (h : one_country s = some (c, s')) : c.prefix_list ≠ [] := by
  unfold one_country at h
  obtain ⟨v, hv, hc⟩ := pmap_eq_some h
  obtain ⟨s₁, u, h1, h2⟩ := pthenIgnore_eq_some hv
  obtain ⟨a, s₂, b, ha, hb, hv2⟩ := pthen_eq_some h1
  have hne := prefix_list_p_ne_nil hb
  subst hv2
  subst hc
  obtain ⟨⟨⟨⟨⟨⟨⟨nm, cq⟩, itu⟩, cont⟩, lat⟩, lon⟩, toff⟩, pp⟩ := a
  exact hne

/-- Claim C9, amended (corrected): every successfully parsed record has a
non-empty alias list (the grammar cannot produce an empty one), but — per the
counterexample `claim_C9_cex` — that list need not contain the record's
primary prefix. -/
theorem claim_C9 (s : List Char) (cs : List Country) (rest : List Char)
    (h : parser s = some (cs, rest)) : ∀ c ∈ cs, c.prefix_list ≠ [] := by
  intro c hc
  unfold parser pmany at h
  obtain ⟨t, u, ht⟩ := manyAux_mem h c hc
  exact one_country_prefix_list ht

/-- Witness for the amended C9: the Finland record, as parsed, has a
non-empty alias list. -/
theorem claim_C9_witness :
    parser fin_line.data = some ([fin_record], []) ∧ fin_record.prefix_list ≠ [] :=
  ⟨by decide,
   claim_C9 fin_line.data [fin_record] [] (by decide) fin_record (List.mem_singleton.mpr rfl)⟩

end Cty
